import Mathlib

/-!
Verification development for a two-player Greek Scrabble variant
(`classes.py` / `main.py`): a letter bag (`SakClass`), a human and a
computer player, computer word-search strategies (MIN, MAX, SMART, FAIL,
LEARN, TEACH) and the turn loop of `Game.run`.

Words and hands are lists of characters.  The Python `random.shuffle`
calls are modelled by an explicit shuffle function parameter `sh`
together with the assumption `IsShuffle sh` (the result is a permutation
of the input); concrete instances use the identity shuffle.
-/

namespace GreekScrabble

abbrev Word := List Char

/-- The six computer strategies of `Computer.__init__` (`classes.py`). -/
inductive Strategy
  | MIN | MAX | SMART | FAIL | LEARN | TEACH
deriving DecidableEq, Repr

/-- `SakClass.__init__`: the Greek Scrabble letter table, in source
order: letter ↦ (supply count, point value). -/
def greekLetters : List (Char × Nat × Nat) :=
  [('Α', 12, 1), ('Β', 1, 8), ('Γ', 2, 4),
   ('Δ', 2, 4), ('Ε', 8, 1), ('Ζ', 1, 10),
   ('Η', 7, 1), ('Θ', 1, 10), ('Ι', 8, 1),
   ('Κ', 4, 2), ('Λ', 3, 3), ('Μ', 3, 3),
   ('Ν', 6, 1), ('Ξ', 1, 10), ('Ο', 9, 1),
   ('Π', 4, 2), ('Ρ', 5, 2), ('Σ', 7, 1),
   ('Τ', 8, 1), ('Υ', 4, 2), ('Φ', 1, 8),
   ('Χ', 1, 8), ('Ψ', 1, 10), ('Ω', 3, 3)]

/-- `self.letters[l]` as a partial lookup: `some (count, value)` when
the letter is a key of the table, `none` otherwise (a Python `KeyError`). -/
def lookupLetter (c : Char) : Option (Nat × Nat) :=
  greekLetters.lookup c

/-- Every letter of the list is a key of the letter table (so that
scoring it cannot raise `KeyError`). -/
def lettersOk (l : List Char) : Prop :=
  ∀ c ∈ l, (lookupLetter c).isSome

instance lettersOk_decidable (l : List Char) : Decidable (lettersOk l) :=
  List.decidableBAll (fun c => (lookupLetter c).isSome) l

/-- `self.letters[l][1]` made total with default 0.  Python raises
`KeyError` on a missing letter; the theorems below apply this only to
letters of the table (see the reachability invariant `reachable_hands_in_table`),
where the default branch is never taken. -/
def letterScore (c : Char) : Nat :=
  (lookupLetter c).elim 0 Prod.snd

/-- `sum(SakClass().letters[l][1] for l in w)` (total form). -/
def scoreWord (w : Word) : Nat :=
  (w.map letterScore).sum

/-- The same per-letter score sum, failing (like Python's `KeyError`)
when some letter is not a key of the table. -/
def scoreWordOpt (w : Word) : Option Nat :=
  (w.mapM lookupLetter).map (fun ps => (ps.map Prod.snd).sum)

/-- `SakClass.randomize_sak`, before the shuffle: expand each table
entry to `count` copies of its letter, in table order. -/
def expandTable : List Char :=
  greekLetters.flatMap (fun e => List.replicate e.2.1 e.1)

/-- Python's `list.pop()`: remove and return the last element;
`none` models the `IndexError` on an empty list. -/
def popLast (s : List Char) : Option (Char × List Char) :=
  match s.reverse with
  | [] => none
  | x :: rest => some (x, rest.reverse)

/-- The loop body of `SakClass.getletters`: `hand.append(self.sak.pop())`
run `fuel` times, propagating a pop failure. -/
def getlettersAux : Nat → List Char → List Char → Option (List Char × List Char)
  | 0, hand, s => some (hand, s)
  | fuel + 1, hand, s =>
    match popLast s with
    | none => none
    | some (x, s₁) => getlettersAux fuel (hand ++ [x]) s₁

/-- `SakClass.getletters(n)`: pop `min n (length of the bag)` letters
from the end of the bag, returning `(hand, remaining bag)`. -/
def getletters (s : List Char) (n : Nat) : Option (List Char × List Char) :=
  getlettersAux (min n s.length) [] s

/-- Closed form of `getletters` (see `getletters_eq_total`): the popped
hand is the reversed tail of the bag. -/
def getlettersT (s : List Char) (n : Nat) : List Char × List Char :=
  (s.reverse.take (min n s.length), (s.reverse.drop (min n s.length)).reverse)

/-- `SakClass.putbackletters`: extend the bag with the returned letters
and reshuffle. -/
def putbackletters (sh : List Char → List Char) (sak letters : List Char) : List Char :=
  sh (sak ++ letters)

/-- A modelled `random.shuffle` outcome: some permutation of its input. -/
def IsShuffle (sh : List Char → List Char) : Prop :=
  ∀ l : List Char, (sh l).Perm l

/-- The sentinel `"PASS"`. -/
def passWord : Word := ['P', 'A', 'S', 'S']

/-- The quit token `"Q"`. -/
def qWord : Word := ['Q']

/-- The exchange token `"P"`. -/
def pWord : Word := ['P']

/-- All ways to pick one element of a list (by position, in order),
returning the picked element and the remaining list. -/
def pick : List Char → List (Char × List Char)
  | [] => []
  | x :: xs => (x, xs) :: (pick xs).map (fun p => (p.1, x :: p.2))

/-- `itertools.permutations(l, r)`: all arrangements of `r` distinct
positions of `l`, in lexicographic order of the position tuples.  A hand
with repeated letters yields repeated strings, as in Python. -/
def permutations : Nat → List Char → List Word
  | 0, _ => [[]]
  | r + 1, l => (pick l).flatMap (fun p => (permutations r p.2).map (fun t => p.1 :: t))

/-- Python `range(2, k + 1)`: the ascending arity list `[2, …, k]`. -/
def arityAsc (k : Nat) : List Nat := List.range' 2 (k - 1)

/-- The arity scan order of `Computer.min_max_smart`:
`range(2, len(hand)+1)` for MIN, `range(len(hand), 1, -1)` otherwise. -/
def arityRange (strat : Strategy) (k : Nat) : List Nat :=
  if strat = Strategy.MIN then arityAsc k else (arityAsc k).reverse

/-- The acceptable candidates at one arity, in enumeration order:
permutations of the hand taken `i` at a time that are in the word set. -/
def candsAt (hand : List Char) (ws : List Word) (i : Nat) : List Word :=
  (permutations i hand).filter (fun w => decide (w ∈ ws))

/-- All acceptable words derivable from the hand, in the ascending
enumeration order (with multiplicity). -/
def acceptables (hand : List Char) (ws : List Word) : List Word :=
  (arityAsc hand.length).flatMap (candsAt hand ws)

/-- The arity loop of `Computer.min_max_smart`: accumulate acceptable
words arity by arity; for MIN/MAX return `words[0]` as soon as the
accumulator is nonempty after an arity. -/
def mmsLoop (strat : Strategy) (hand : List Char) (ws : List Word) :
    List Nat → List Word → Option Word
  | [], _ => none
  | i :: rest, acc =>
    let acc₁ := acc ++ candsAt hand ws i
    if (strat = Strategy.MIN ∨ strat = Strategy.MAX) ∧ acc₁ ≠ [] then acc₁.head?
    else mmsLoop strat hand ws rest acc₁

/-- The body of the SMART scan: keep the candidate if it scores strictly
more than the best so far. -/
def smartStep (b : Word × Nat) (w : Word) : Word × Nat :=
  if scoreWord w > b.2 then (w, scoreWord w) else b

/-- The exhaustive best-score scan shared (textually duplicated in the
source) by the SMART branch of `Computer.min_max_smart` and by
`Computer.smart_teach`: every arity `2..k` ascending, every permutation,
track the strictly-highest-scoring acceptable word. -/
def bestScoring (hand : List Char) (ws : List Word) : Word :=
  let r := (arityAsc hand.length).foldl
    (fun b i => (permutations i hand).foldl
      (fun b w => if decide (w ∈ ws) then smartStep b w else b) b)
    ([], 0)
  if r.1.isEmpty then passWord else r.1

/-- `Computer.min_max_smart`. -/
def min_max_smart (strat : Strategy) (hand : List Char) (ws : List Word) : Word :=
  match mmsLoop strat hand ws (arityRange strat hand.length) [] with
  | some w => w
  | none =>
    if strat = Strategy.SMART then bestScoring hand ws
    else passWord

/-- Python string `<` on words (lexicographic by code point, a proper
prefix being smaller). -/
def wordLt : Word → Word → Bool
  | [], [] => false
  | [], _ :: _ => true
  | _ :: _, [] => false
  | a :: as, b :: bs => if a < b then true else if b < a then false else wordLt as bs

/-- Descending order on `(score, word)` pairs:
`words_scores.sort(reverse=True)` sorts by the Python tuple order
(score first, then the word string) in reverse. -/
def pairGe (a b : Nat × Word) : Bool :=
  if a.1 = b.1 then !wordLt a.2 b.2 else b.1 < a.1

/-- The scored candidate list built by `Computer.fail_strategy`, in
enumeration order (duplicates included, one per permutation). -/
def failPairs (hand : List Char) (ws : List Word) : List (Nat × Word) :=
  (arityAsc hand.length).flatMap
    (fun i => (candsAt hand ws i).map (fun w => (scoreWord w, w)))

/-- `words_scores` after `sort(reverse=True)`: a stable descending sort
on the Python tuple order. -/
def failSorted (hand : List Char) (ws : List Word) : List (Nat × Word) :=
  List.insertionSort (fun a b => pairGe a b = true) (failPairs hand ws)

/-- `Computer.fail_strategy`: return the word of the second entry of the
sorted list when it has more than one entry, of the only entry when it
has one, `"PASS"` when it is empty. -/
def fail_strategy (hand : List Char) (ws : List Word) : Word :=
  match failSorted hand ws with
  | [] => passWord
  | [p] => p.2
  | _ :: q :: _ => q.2

/-- `Computer.smart_learn`: delegate to `min_max_smart` (with the
player's own strategy tag, LEARN, still in effect). -/
def smart_learn (hand : List Char) (ws : List Word) : Word :=
  min_max_smart Strategy.LEARN hand ws

/-- `Computer.smart_teach`: the exhaustive best-score scan. -/
def smart_teach (hand : List Char) (ws : List Word) : Word :=
  bestScoring hand ws

/-- `Computer.play`: union the dictionary with the learned words, then
dispatch on the strategy tag. -/
def computerPlay (strat : Strategy) (learned : List Word)
    (hand : List Char) (ws : List Word) : Word :=
  let allWords := ws ++ learned
  match strat with
  | Strategy.MIN | Strategy.MAX | Strategy.SMART => min_max_smart strat hand allWords
  | Strategy.FAIL => fail_strategy hand allWords
  | Strategy.LEARN => smart_learn hand allWords
  | Strategy.TEACH => smart_teach hand allWords

/-- The turn-relevant state of `Game`: the bag, the two players created
by `Game.setup` (`players[0]` human, `players[1]` computer) and the turn
counter of `Game.run`.  The word set and the strategy are fixed for a
match and passed as parameters. -/
structure GameState where
  sak : List Char
  humanHand : List Char
  humanScore : Nat
  compHand : List Char
  compScore : Nat
  learned : List Word
  turn : Nat
deriving DecidableEq, Repr

/-- Letters in the bag plus letters in both hands. -/
def totalLetters (s : GameState) : Nat :=
  s.sak.length + s.humanHand.length + s.compHand.length

/-- `all(word.count(l) <= player.hand.count(l) for l in word)`. -/
def playableFrom (w hand : List Char) : Bool :=
  w.all (fun l => decide (w.count l ≤ hand.count l))

/-- `for l in word: player.hand.remove(l)`: remove the first occurrence
of each letter of the word from the hand, in order. -/
def removeLetters (hand w : List Char) : List Char :=
  w.foldl (fun h l => h.erase l) hand

/-- `Game.setup` after `SakClass.__init__`: shuffle the full 102-letter
bag, then deal 7 letters first to the human, then to the computer. -/
def setupState (sh : List Char → List Char) : GameState :=
  let s₀ := sh expandTable
  let d₁ := getlettersT s₀ 7
  let d₂ := getlettersT d₁.2 7
  { sak := d₂.2, humanHand := d₁.1, humanScore := 0,
    compHand := d₂.1, compScore := 0, learned := [], turn := 0 }

/-- What one iteration of the `Game.run` loop did (its printed report):
quit, exchange, a played word with its points, an explicit pass, the
TEACH advisory branch (`shown` records whether the advice was printed,
i.e. whether the token was in the dictionary), or an invalid word. -/
inductive Outcome
  | quit
  | exchanged
  | played (w : Word) (sc : Nat)
  | passed
  | advised (best : Word) (shown : Bool)
  | invalid
deriving DecidableEq, Repr

/-- The advisory word actually printed to the human, if any. -/
def surfacedAdvice : Outcome → Option Word
  | Outcome.advised best true => some best
  | _ => none

/-- Number of letters a turn consumed from the game: the length of a
played word, zero otherwise. -/
def playedPenalty : Outcome → Nat
  | Outcome.played w _ => w.length
  | _ => 0

/-- `word = player.play(self.wordset)` of `Game.run`: on an even turn
the human's typed token, on an odd turn the computer's `Computer.play`. -/
def activeToken (ws : List Word) (strat : Strategy) (s : GameState) (input : Word) : Word :=
  if s.turn % 2 = 0 then input else computerPlay strat s.learned s.compHand ws

/-- One iteration of the `Game.run` loop.  Returns the state after the
iteration and what happened. -/
def runTurn (ws : List Word) (strat : Strategy) (sh : List Char → List Char)
    (s : GameState) (input : Word) : GameState × Outcome :=
  let isHuman := s.turn % 2 = 0
  let hand := if isHuman then s.humanHand else s.compHand
  let token := activeToken ws strat s input
  if token = qWord then
    (s, Outcome.quit)
  else if token = pWord then
    let sak₁ := putbackletters sh s.sak hand
    let d := getlettersT sak₁ 7
    (if isHuman then
      { s with sak := d.2, humanHand := d.1, turn := s.turn + 1 }
     else
      { s with sak := d.2, compHand := d.1, turn := s.turn + 1 },
     Outcome.exchanged)
  else if decide (token ∈ ws) && playableFrom token hand then
    let sc := scoreWord token
    let hand₁ := removeLetters hand token
    let d := getlettersT s.sak (7 - hand₁.length)
    (if isHuman then
      { s with sak := d.2, humanHand := hand₁ ++ d.1,
               humanScore := s.humanScore + sc, turn := s.turn + 1 }
     else
      { s with sak := d.2, compHand := hand₁ ++ d.1,
               compScore := s.compScore + sc, turn := s.turn + 1 },
     Outcome.played token sc)
  else if token = passWord then
    ({ s with turn := s.turn + 1 }, Outcome.passed)
  else if isHuman ∧ strat = Strategy.TEACH then
    let best := smart_teach s.compHand ws
    ({ s with turn := s.turn + 1 }, Outcome.advised best (decide (token ∈ ws)))
  else
    ({ s with turn := s.turn + 1 }, Outcome.invalid)

/-- The states a match can be in after `Game.setup` and after each
completed iteration of the `Game.run` loop, for arbitrary shuffle
outcomes and arbitrary human input. -/
inductive Reachable (ws : List Word) (strat : Strategy) : GameState → Prop
  | setup : ∀ sh, IsShuffle sh → Reachable ws strat (setupState sh)
  | step : ∀ s input sh, IsShuffle sh → Reachable ws strat s →
      Reachable ws strat (runTurn ws strat sh s input).1

/-! ### Lemmas about the bag -/

theorem popLast_eq_none {s : List Char} : popLast s = none ↔ s = [] := by
  unfold popLast
  cases h : s.reverse with
  | nil =>
    have hs : s = [] := by simpa using congrArg List.reverse h
    simp [hs]
  | cons x rest =>
    constructor
    · intro hc; exact absurd hc (by simp)
    · intro hs; subst hs; simp at h

theorem popLast_some {s : List Char} {x : Char} {s₁ : List Char}
    (h : popLast s = some (x, s₁)) : s = s₁ ++ [x] := by
  unfold popLast at h
  cases hr : s.reverse with
  | nil => rw [hr] at h; exact absurd h (by simp)
  | cons y rest =>
    rw [hr] at h
    simp only [Option.some.injEq, Prod.mk.injEq] at h
    obtain ⟨rfl, rfl⟩ := h
    have := congrArg List.reverse hr
    simpa using this

theorem getlettersAux_spec :
    ∀ (fuel : Nat) (hand s : List Char), fuel ≤ s.length →
    ∃ h₁ s₁, getlettersAux fuel hand s = some (h₁, s₁) ∧
      h₁.length = hand.length + fuel ∧ (h₁ ++ s₁).Perm (hand ++ s) := by
  intro fuel
  induction fuel with
  | zero =>
    intro hand s _
    exact ⟨hand, s, rfl, by simp, List.Perm.refl _⟩
  | succ k ih =>
    intro hand s hlen
    have hs : s ≠ [] := by
      intro h; subst h; simp at hlen
    obtain ⟨x, s₁, hpop⟩ : ∃ x s₁, popLast s = some (x, s₁) := by
      cases h : popLast s with
      | none => exact absurd (popLast_eq_none.mp h) hs
      | some p => exact ⟨p.1, p.2, by simp [h]⟩
    have hsplit : s = s₁ ++ [x] := popLast_some hpop
    have hlen₁ : k ≤ s₁.length := by
      have : s.length = s₁.length + 1 := by rw [hsplit]; simp
      omega
    obtain ⟨h₂, s₂, heq, hl, hperm⟩ := ih (hand ++ [x]) s₁ hlen₁
    refine ⟨h₂, s₂, ?_, ?_, ?_⟩
    · simp only [getlettersAux, hpop]; exact heq
    · simp at hl; simp [hl]; omega
    · refine hperm.trans ?_
      rw [hsplit, List.append_assoc]
      exact List.Perm.append_left hand List.perm_append_comm

theorem getletters_spec (s : List Char) (n : Nat) :
    ∃ h₁ s₁, getletters s n = some (h₁, s₁) ∧
      h₁.length = min n s.length ∧ (h₁ ++ s₁).Perm s := by
  obtain ⟨h₁, s₁, heq, hl, hp⟩ :=
    getlettersAux_spec (min n s.length) [] s (Nat.min_le_right _ _)
  exact ⟨h₁, s₁, heq, by simpa using hl, by simpa using hp⟩

theorem getlettersAux_total :
    ∀ (fuel : Nat) (hand s : List Char), fuel ≤ s.length →
    getlettersAux fuel hand s =
      some (hand ++ s.reverse.take fuel, (s.reverse.drop fuel).reverse) := by
  intro fuel
  induction fuel with
  | zero => intro hand s _; simp [getlettersAux]
  | succ k ih =>
    intro hand s hlen
    have hs : s ≠ [] := by intro h; subst h; simp at hlen
    obtain ⟨x, s₁, hpop⟩ : ∃ x s₁, popLast s = some (x, s₁) := by
      cases h : popLast s with
      | none => exact absurd (popLast_eq_none.mp h) hs
      | some p => exact ⟨p.1, p.2, by simp [h]⟩
    have hsplit : s = s₁ ++ [x] := popLast_some hpop
    have hrev : s.reverse = x :: s₁.reverse := by rw [hsplit]; simp
    have hlen₁ : k ≤ s₁.length := by
      have : s.length = s₁.length + 1 := by rw [hsplit]; simp
      omega
    simp only [getlettersAux, hpop, ih (hand ++ [x]) s₁ hlen₁, hrev]
    simp

/-- `getletters` never fails and computes the closed form `getlettersT`. -/
theorem getletters_eq_total (s : List Char) (n : Nat) :
    getletters s n = some (getlettersT s n) := by
  unfold getletters getlettersT
  rw [getlettersAux_total (min n s.length) [] s (Nat.min_le_right _ _)]
  simp

theorem getlettersT_fst_length (s : List Char) (n : Nat) :
    (getlettersT s n).1.length = min n s.length := by
  unfold getlettersT
  simp [Nat.min_le_right n s.length]

theorem getlettersT_perm (s : List Char) (n : Nat) :
    ((getlettersT s n).1 ++ (getlettersT s n).2).Perm s := by
  unfold getlettersT
  refine List.Perm.trans ?_ (List.reverse_perm s)
  refine List.Perm.trans (List.Perm.append_left _ (List.reverse_perm _)) ?_
  simp

theorem getlettersT_snd_length (s : List Char) (n : Nat) :
    (getlettersT s n).2.length = s.length - min n s.length := by
  have hp := (getlettersT_perm s n).length_eq
  have h1 := getlettersT_fst_length s n
  simp only [List.length_append] at hp
  omega

theorem getlettersT_fst_subset {s : List Char} {n : Nat} {c : Char}
    (h : c ∈ (getlettersT s n).1) : c ∈ s :=
  (getlettersT_perm s n).mem_iff.mp (List.mem_append.mpr (Or.inl h))

theorem getlettersT_snd_subset {s : List Char} {n : Nat} {c : Char}
    (h : c ∈ (getlettersT s n).2) : c ∈ s :=
  (getlettersT_perm s n).mem_iff.mp (List.mem_append.mpr (Or.inr h))

/-! ### Lemmas about the letter table and permutations -/

theorem lookup_value_pos {c : Char} {p : Nat × Nat}
    (h : lookupLetter c = some p) : 1 ≤ p.2 := by
  have hmem : (c, p) ∈ greekLetters := by
    obtain ⟨l₁, l₂, hsplit, -⟩ := List.lookup_eq_some_iff.mp h
    rw [hsplit]
    exact List.mem_append.mpr (Or.inr (List.mem_cons_self _ _))
  have hall : ∀ e ∈ greekLetters, 1 ≤ e.2.2 := by decide
  exact hall _ hmem

theorem letterScore_pos {c : Char} (h : (lookupLetter c).isSome) :
    1 ≤ letterScore c := by
  obtain ⟨p, hp⟩ := Option.isSome_iff_exists.mp h
  rw [letterScore, hp]
  exact lookup_value_pos hp

theorem mem_expandTable_lookup {c : Char} (h : c ∈ expandTable) :
    (lookupLetter c).isSome := by
  obtain ⟨e, he, hc⟩ := List.mem_flatMap.mp h
  have hc' : c = e.1 := List.eq_of_mem_replicate hc
  subst hc'
  rw [lookupLetter, List.lookup_isSome_iff]
  exact ⟨e, he, by simp⟩

theorem mapM_lookup_isSome :
    ∀ w : Word, (w.mapM lookupLetter).isSome ↔ ∀ c ∈ w, (lookupLetter c).isSome := by
  intro w
  induction w with
  | nil => rw [List.mapM_nil]; simp
  | cons c rest ih =>
    have hstep : ((c :: rest).mapM lookupLetter).isSome
        ↔ ((lookupLetter c).isSome ∧ (rest.mapM lookupLetter).isSome) := by
      rw [List.mapM_cons]
      cases hc : lookupLetter c <;> cases hrest : rest.mapM lookupLetter <;>
        simp [hc, hrest]
    rw [hstep, ih]
    simp [List.forall_mem_cons]

theorem scoreWordOpt_isSome_iff {w : Word} :
    (scoreWordOpt w).isSome ↔ ∀ c ∈ w, (lookupLetter c).isSome := by
  have hmap : (scoreWordOpt w).isSome = (w.mapM lookupLetter).isSome := by
    unfold scoreWordOpt
    cases w.mapM lookupLetter <;> simp
  rw [hmap]
  exact mapM_lookup_isSome w

theorem mem_pick {l : List Char} {x : Char} {rest : List Char}
    (h : (x, rest) ∈ pick l) : x ∈ l ∧ rest.length + 1 = l.length ∧ ∀ y ∈ rest, y ∈ l := by
  induction l generalizing x rest with
  | nil => simp [pick] at h
  | cons a as ih =>
    simp only [pick, List.mem_cons, List.mem_map, Prod.mk.injEq] at h
    rcases h with ⟨rfl, rfl⟩ | ⟨⟨px, prest⟩, hp, h1, h2⟩
    · exact ⟨List.mem_cons_self _ _, by simp, fun y hy => List.mem_cons_of_mem _ hy⟩
    · subst h1
      subst h2
      obtain ⟨hx, hlen, hsub⟩ := ih hp
      refine ⟨List.mem_cons_of_mem _ hx, by simp; omega, ?_⟩
      intro y hy
      rcases List.mem_cons.mp hy with rfl | hy'
      · exact List.mem_cons_self _ _
      · exact List.mem_cons_of_mem _ (hsub y hy')

theorem mem_permutations {r : Nat} {l : List Char} {w : Word}
    (h : w ∈ permutations r l) : w.length = r ∧ ∀ c ∈ w, c ∈ l := by
  induction r generalizing l w with
  | zero =>
    simp only [permutations, List.mem_singleton] at h
    subst h
    simp
  | succ k ih =>
    simp only [permutations, List.mem_flatMap, List.mem_map] at h
    obtain ⟨p, hp, t, ht, rfl⟩ := h
    obtain ⟨hx, -, hsub⟩ := mem_pick (show (p.1, p.2) ∈ pick l from hp)
    obtain ⟨hlen, hmem⟩ := ih ht
    refine ⟨by simp [hlen], ?_⟩
    intro c hc
    rcases List.mem_cons.mp hc with rfl | hc'
    · exact hx
    · exact hsub c (hmem c hc')

theorem mem_candsAt {hand : List Char} {ws : List Word} {i : Nat} {w : Word} :
    w ∈ candsAt hand ws i ↔ w ∈ permutations i hand ∧ w ∈ ws := by
  simp [candsAt]

theorem mem_arityAsc {k j : Nat} : j ∈ arityAsc k ↔ 2 ≤ j ∧ j ≤ k := by
  simp only [arityAsc, List.mem_range']
  constructor
  · rintro ⟨i, hi, rfl⟩; omega
  · intro ⟨h2, hk⟩; exact ⟨j - 2, by omega, by omega⟩

theorem mem_acceptables {hand : List Char} {ws : List Word} {w : Word} :
    w ∈ acceptables hand ws ↔
      ∃ i, 2 ≤ i ∧ i ≤ hand.length ∧ w ∈ candsAt hand ws i := by
  simp only [acceptables, List.mem_flatMap]
  constructor
  · rintro ⟨i, hi, hw⟩
    exact ⟨i, (mem_arityAsc.mp hi).1, (mem_arityAsc.mp hi).2, hw⟩
  · rintro ⟨i, h2, hk, hw⟩
    exact ⟨i, mem_arityAsc.mpr ⟨h2, hk⟩, hw⟩

theorem acceptables_spec {hand : List Char} {ws : List Word} {w : Word}
    (h : w ∈ acceptables hand ws) :
    2 ≤ w.length ∧ w.length ≤ hand.length ∧ w ∈ ws ∧ ∀ c ∈ w, c ∈ hand := by
  obtain ⟨i, h2, hk, hw⟩ := mem_acceptables.mp h
  obtain ⟨hperm, hws⟩ := mem_candsAt.mp hw
  obtain ⟨hlen, hsub⟩ := mem_permutations hperm
  exact ⟨hlen ▸ h2, hlen ▸ hk, hws, hsub⟩

theorem lettersOk_of_acceptable {hand : List Char} {ws : List Word} {w : Word}
    (hOk : lettersOk hand) (h : w ∈ acceptables hand ws) : lettersOk w :=
  fun c hc => hOk c ((acceptables_spec h).2.2.2 c hc)

theorem acceptable_ne_passWord {hand : List Char} {ws : List Word} {w : Word}
    (hOk : lettersOk hand) (h : w ∈ acceptables hand ws) : w ≠ passWord := by
  intro hw
  have hp : ('P' : Char) ∈ w := by rw [hw, passWord]; simp
  have := lettersOk_of_acceptable hOk h 'P' hp
  revert this
  decide

theorem scoreWord_pos {hand : List Char} {ws : List Word} {w : Word}
    (hOk : lettersOk hand) (h : w ∈ acceptables hand ws) : 1 ≤ scoreWord w := by
  obtain ⟨h2, -, -, hsub⟩ := acceptables_spec h
  cases w with
  | nil => simp at h2
  | cons c rest =>
    have hc : (lookupLetter c).isSome := hOk c (hsub c (List.mem_cons_self _ _))
    have := letterScore_pos hc
    simp only [scoreWord, List.map_cons, List.sum_cons]
    omega

theorem acceptables_eq_nil_iff {hand : List Char} {ws : List Word} :
    acceptables hand ws = [] ↔ ∀ i ∈ arityAsc hand.length, candsAt hand ws i = [] :=
  List.flatMap_eq_nil_iff

/-! ### The MIN/MAX loop -/

theorem mmsLoop_none_of_not_minmax {strat : Strategy} {hand : List Char} {ws : List Word}
    (hstrat : ¬(strat = Strategy.MIN ∨ strat = Strategy.MAX)) :
    ∀ (L : List Nat) (acc : List Word), mmsLoop strat hand ws L acc = none := by
  intro L
  induction L with
  | nil => intro acc; rfl
  | cons i rest ih =>
    intro acc
    simp only [mmsLoop]
    rw [if_neg (fun h => hstrat h.1)]
    exact ih _

theorem mmsLoop_none_iff {strat : Strategy} {hand : List Char} {ws : List Word}
    (hstrat : strat = Strategy.MIN ∨ strat = Strategy.MAX) :
    ∀ L : List Nat,
      (mmsLoop strat hand ws L [] = none ↔ ∀ i ∈ L, candsAt hand ws i = []) := by
  intro L
  induction L with
  | nil => simp [mmsLoop]
  | cons i rest ih =>
    by_cases hc : candsAt hand ws i = []
    · simp only [mmsLoop, List.nil_append, hc]
      rw [if_neg (by simp)]
      rw [ih]
      constructor
      · intro h j hj
        rcases List.mem_cons.mp hj with rfl | hj'
        · exact hc
        · exact h j hj'
      · intro h j hj
        exact h j (List.mem_cons_of_mem _ hj)
    · simp only [mmsLoop, List.nil_append]
      rw [if_pos ⟨hstrat, hc⟩]
      constructor
      · intro h
        exact absurd h (by simp [List.head?_eq_none_iff, hc])
      · intro h
        exact absurd (h i (List.mem_cons_self _ _)) hc

theorem mmsLoop_some_split {strat : Strategy} {hand : List Char} {ws : List Word} :
    ∀ (L : List Nat) (w : Word), mmsLoop strat hand ws L [] = some w →
      ∃ pre i₀ post, L = pre ++ i₀ :: post ∧ (∀ j ∈ pre, candsAt hand ws j = []) ∧
        (candsAt hand ws i₀).head? = some w := by
  intro L
  induction L with
  | nil => intro w h; simp [mmsLoop] at h
  | cons i rest ih =>
    intro w h
    by_cases hc : candsAt hand ws i = []
    · simp only [mmsLoop, List.nil_append, hc] at h
      rw [if_neg (by simp)] at h
      obtain ⟨pre, i₀, post, rfl, hpre, hw⟩ := ih w h
      refine ⟨i :: pre, i₀, post, by simp, ?_, hw⟩
      intro j hj
      rcases List.mem_cons.mp hj with rfl | hj'
      · exact hc
      · exact hpre j hj'
    · simp only [mmsLoop, List.nil_append] at h
      by_cases hg : (strat = Strategy.MIN ∨ strat = Strategy.MAX)
      · rw [if_pos ⟨hg, hc⟩] at h
        exact ⟨[], i, rest, rfl, by simp, h⟩
      · rw [if_neg (fun hx => hg hx.1)] at h
        rw [mmsLoop_none_of_not_minmax hg] at h
        exact absurd h (by simp)

theorem head?_mem {l : List Word} {w : Word} (h : l.head? = some w) : w ∈ l := by
  cases l with
  | nil => simp at h
  | cons a rest =>
    simp only [List.head?_cons, Option.some.injEq] at h
    exact h ▸ List.mem_cons_self _ _

/-- Decomposing the ascending arity list around one element. -/
theorem arityAsc_split {k : Nat} {A B : List Nat} {i : Nat}
    (h : arityAsc k = A ++ i :: B) :
    2 ≤ i ∧ i ≤ k ∧ A = List.range' 2 (i - 2) ∧ B = List.range' (i + 1) (k - i) := by
  have hmem : i ∈ arityAsc k := by rw [h]; simp
  obtain ⟨h2, hk⟩ := mem_arityAsc.mp hmem
  have hlen : A.length + (B.length + 1) = k - 1 := by
    have hL := congrArg List.length h
    simp only [arityAsc, List.length_range', List.length_append, List.length_cons] at hL
    omega
  have hi : i = 2 + A.length := by
    have h1 : (A ++ i :: B)[A.length]? = some i := by
      rw [List.getElem?_append_right (Nat.le_refl _)]
      simp
    rw [← h] at h1
    have h2' : (arityAsc k)[A.length]? = some (2 + 1 * A.length) := by
      rw [arityAsc]
      exact List.getElem?_range' 2 1 (by omega)
    rw [h1] at h2'
    simp at h2'
    omega
  have hsplit : arityAsc k =
      List.range' 2 A.length ++ List.range' (2 + A.length) (k - 1 - A.length) := by
    rw [arityAsc, List.range'_append_1]
    congr 1
    omega
  rw [h] at hsplit
  obtain ⟨hA, hB⟩ := List.append_inj hsplit (by simp)
  have hkA : k - 1 - A.length = (k - i) + 1 - 1 + 1 := by omega
  rw [hkA] at hB
  rw [List.range'_succ] at hB
  have hBeq : i :: B = (2 + A.length) :: List.range' (2 + A.length + 1) (k - i + 1 - 1) := by
    exact hB
  simp only [List.cons.injEq] at hBeq
  refine ⟨h2, hk, ?_, ?_⟩
  · rw [hA]; congr 1; omega
  · rw [hBeq.2]; congr 1; omega

theorem min_correct (hand : List Char) (ws : List Word) (hOk : lettersOk hand) :
    (min_max_smart Strategy.MIN hand ws = passWord ↔ acceptables hand ws = []) ∧
    (min_max_smart Strategy.MIN hand ws ≠ passWord →
      ∃ i₀, 2 ≤ i₀ ∧ i₀ ≤ hand.length ∧
        (∀ j, 2 ≤ j → j < i₀ → candsAt hand ws j = []) ∧
        (candsAt hand ws i₀).head? = some (min_max_smart Strategy.MIN hand ws) ∧
        (∀ w ∈ acceptables hand ws,
          (min_max_smart Strategy.MIN hand ws).length ≤ w.length)) := by
  have harity : arityRange Strategy.MIN hand.length = arityAsc hand.length := if_pos rfl
  cases hloop : mmsLoop Strategy.MIN hand ws (arityAsc hand.length) [] with
  | none =>
    have hr : min_max_smart Strategy.MIN hand ws = passWord := by
      unfold min_max_smart
      rw [harity, hloop]
      rfl
    have hempty : acceptables hand ws = [] :=
      acceptables_eq_nil_iff.mpr ((mmsLoop_none_iff (Or.inl rfl) _).mp hloop)
    exact ⟨by simp [hr, hempty], fun hne => absurd hr hne⟩
  | some w =>
    have hr : min_max_smart Strategy.MIN hand ws = w := by
      unfold min_max_smart
      rw [harity, hloop]
    obtain ⟨pre, i₀, post, hsplit, hpre, hw⟩ := mmsLoop_some_split _ _ hloop
    obtain ⟨h2, hk, hA, -⟩ := arityAsc_split hsplit
    have hmemw : w ∈ candsAt hand ws i₀ := head?_mem hw
    have hwacc : w ∈ acceptables hand ws := mem_acceptables.mpr ⟨i₀, h2, hk, hmemw⟩
    have hwlen : w.length = i₀ := (mem_permutations (mem_candsAt.mp hmemw).1).1
    have hne : w ≠ passWord := acceptable_ne_passWord hOk hwacc
    have hprelt : ∀ j, 2 ≤ j → j < i₀ → candsAt hand ws j = [] := by
      intro j hj2 hji
      apply hpre
      rw [hA, List.mem_range']
      exact ⟨j - 2, by omega, by omega⟩
    constructor
    · constructor
      · intro hpass; rw [hr] at hpass; exact absurd hpass hne
      · intro hempty
        exact absurd (hempty ▸ hwacc) (List.not_mem_nil w)
    · intro _
      refine ⟨i₀, h2, hk, hprelt, by rw [hr]; exact hw, ?_⟩
      intro w' hw'
      obtain ⟨i', h2', hk', hc'⟩ := mem_acceptables.mp hw'
      have hlen' : w'.length = i' := (mem_permutations (mem_candsAt.mp hc').1).1
      rw [hr, hwlen, hlen']
      by_contra hlt
      push_neg at hlt
      have hcempty : candsAt hand ws i' = [] := hprelt i' h2' (by omega)
      rw [hcempty] at hc'
      exact absurd hc' (List.not_mem_nil _)

theorem max_correct (hand : List Char) (ws : List Word) (hOk : lettersOk hand) :
    (min_max_smart Strategy.MAX hand ws = passWord ↔ acceptables hand ws = []) ∧
    (min_max_smart Strategy.MAX hand ws ≠ passWord →
      ∃ i₁, 2 ≤ i₁ ∧ i₁ ≤ hand.length ∧
        (∀ j, i₁ < j → j ≤ hand.length → candsAt hand ws j = []) ∧
        (candsAt hand ws i₁).head? = some (min_max_smart Strategy.MAX hand ws) ∧
        (∀ w ∈ acceptables hand ws,
          w.length ≤ (min_max_smart Strategy.MAX hand ws).length)) := by
  have harity : arityRange Strategy.MAX hand.length = (arityAsc hand.length).reverse := by
    simp [arityRange]
  cases hloop : mmsLoop Strategy.MAX hand ws ((arityAsc hand.length).reverse) [] with
  | none =>
    have hr : min_max_smart Strategy.MAX hand ws = passWord := by
      unfold min_max_smart
      rw [harity, hloop]
      rfl
    have hempty : acceptables hand ws = [] := by
      refine acceptables_eq_nil_iff.mpr ?_
      intro i hi
      exact (mmsLoop_none_iff (Or.inr rfl) _).mp hloop i (List.mem_reverse.mpr hi)
    exact ⟨by simp [hr, hempty], fun hne => absurd hr hne⟩
  | some w =>
    have hr : min_max_smart Strategy.MAX hand ws = w := by
      unfold min_max_smart
      rw [harity, hloop]
    obtain ⟨pre, i₁, post, hsplit, hpre, hw⟩ := mmsLoop_some_split _ _ hloop
    have hsplit' : arityAsc hand.length = post.reverse ++ i₁ :: pre.reverse := by
      have hrev := congrArg List.reverse hsplit
      simp only [List.reverse_reverse, List.reverse_append, List.reverse_cons] at hrev
      rw [hrev, List.append_assoc]
      simp
    obtain ⟨h2, hk, -, hB⟩ := arityAsc_split hsplit'
    have hmemw : w ∈ candsAt hand ws i₁ := head?_mem hw
    have hwacc : w ∈ acceptables hand ws := mem_acceptables.mpr ⟨i₁, h2, hk, hmemw⟩
    have hwlen : w.length = i₁ := (mem_permutations (mem_candsAt.mp hmemw).1).1
    have hne : w ≠ passWord := acceptable_ne_passWord hOk hwacc
    have hpregt : ∀ j, i₁ < j → j ≤ hand.length → candsAt hand ws j = [] := by
      intro j hji hjk
      apply hpre
      rw [← List.mem_reverse, hB, List.mem_range']
      exact ⟨j - i₁ - 1, by omega, by omega⟩
    constructor
    · constructor
      · intro hpass; rw [hr] at hpass; exact absurd hpass hne
      · intro hempty
        exact absurd (hempty ▸ hwacc) (List.not_mem_nil w)
    · intro _
      refine ⟨i₁, h2, hk, hpregt, by rw [hr]; exact hw, ?_⟩
      intro w' hw'
      obtain ⟨i', h2', hk', hc'⟩ := mem_acceptables.mp hw'
      have hlen' : w'.length = i' := (mem_permutations (mem_candsAt.mp hc').1).1
      rw [hr, hwlen, hlen']
      by_contra hlt
      push_neg at hlt
      have hcempty : candsAt hand ws i' = [] := hpregt i' (by omega) hk'
      rw [hcempty] at hc'
      exact absurd hc' (List.not_mem_nil _)

/-! ### The SMART scan -/

theorem foldl_filter {α β : Type} (p : α → Bool) (f : β → α → β) :
    ∀ (l : List α) (b : β),
      l.foldl (fun b w => if p w then f b w else b) b = (l.filter p).foldl f b := by
  intro l
  induction l with
  | nil => intro b; rfl
  | cons w rest ih =>
    intro b
    by_cases hp : p w
    · simp [List.filter_cons, hp, ih]
    · simp [List.filter_cons, hp, ih]

theorem foldl_flatMap {α β γ : Type} (g : α → List β) (f : γ → β → γ) :
    ∀ (L : List α) (b : γ),
      (L.flatMap g).foldl f b = L.foldl (fun b i => (g i).foldl f b) b := by
  intro L
  induction L with
  | nil => intro b; rfl
  | cons i rest ih =>
    intro b
    simp [List.flatMap_cons, List.foldl_append, ih]

theorem bestScoring_eq_fold (hand : List Char) (ws : List Word) :
    bestScoring hand ws =
      (if ((acceptables hand ws).foldl smartStep ([], 0)).1.isEmpty then passWord
       else ((acceptables hand ws).foldl smartStep ([], 0)).1) := by
  unfold bestScoring acceptables candsAt
  rw [foldl_flatMap]
  have hinner :
      (fun (b : Word × Nat) i => ((permutations i hand).filter
          (fun w => decide (w ∈ ws))).foldl smartStep b)
      = (fun (b : Word × Nat) i => (permutations i hand).foldl
          (fun b w => if decide (w ∈ ws) then smartStep b w else b) b) := by
    funext b i
    exact (foldl_filter _ _ _ _).symm
  rw [hinner]

theorem smartFold_spec :
    ∀ (l : List Word) (b : Word × Nat),
      (l.foldl smartStep b = b ∧ ∀ w ∈ l, scoreWord w ≤ b.2) ∨
      ((l.foldl smartStep b).1 ∈ l ∧
       (l.foldl smartStep b).2 = scoreWord (l.foldl smartStep b).1 ∧
       b.2 < (l.foldl smartStep b).2 ∧
       (∀ w ∈ l, scoreWord w ≤ (l.foldl smartStep b).2) ∧
       l.find? (fun w => decide ((l.foldl smartStep b).2 ≤ scoreWord w)) =
         some (l.foldl smartStep b).1) := by
  intro l
  induction l with
  | nil => intro b; left; exact ⟨rfl, by simp⟩
  | cons w rest ih =>
    intro b
    by_cases hw : scoreWord w > b.2
    · have hstep : smartStep b w = (w, scoreWord w) := if_pos hw
      have hfold : (w :: rest).foldl smartStep b = rest.foldl smartStep (w, scoreWord w) := by
        rw [List.foldl_cons, hstep]
      rcases ih (w, scoreWord w) with ⟨heq, hall⟩ | ⟨hmem, hsc, hlt, hall, hfind⟩
      · right
        rw [hfold, heq]
        refine ⟨List.mem_cons_self _ _, rfl, hw, ?_, ?_⟩
        · intro w' hw'
          rcases List.mem_cons.mp hw' with rfl | hw''
          · exact Nat.le_refl _
          · exact hall w' hw''
        · rw [List.find?_cons_of_pos _ (by simp)]
      · right
        rw [hfold]
        have hlt' : b.2 < (rest.foldl smartStep (w, scoreWord w)).2 := Nat.lt_trans hw hlt
        refine ⟨List.mem_cons_of_mem _ hmem, hsc, hlt', ?_, ?_⟩
        · intro w' hw'
          rcases List.mem_cons.mp hw' with rfl | hw''
          · exact Nat.le_of_lt hlt
          · exact hall w' hw''
        · rw [List.find?_cons_of_neg _ (by simp; omega)]
          exact hfind
    · have hstep : smartStep b w = b := if_neg hw
      have hfold : (w :: rest).foldl smartStep b = rest.foldl smartStep b := by
        rw [List.foldl_cons, hstep]
      push_neg at hw
      rcases ih b with ⟨heq, hall⟩ | ⟨hmem, hsc, hlt, hall, hfind⟩
      · left
        rw [hfold, heq]
        refine ⟨rfl, ?_⟩
        intro w' hw'
        rcases List.mem_cons.mp hw' with rfl | hw''
        · exact hw
        · exact hall w' hw''
      · right
        rw [hfold]
        refine ⟨List.mem_cons_of_mem _ hmem, hsc, hlt, ?_, ?_⟩
        · intro w' hw'
          rcases List.mem_cons.mp hw' with rfl | hw''
          · exact Nat.le_trans hw (Nat.le_of_lt hlt)
          · exact hall w' hw''
        · rw [List.find?_cons_of_neg _ (by simp; omega)]
          exact hfind

/-- Full characterisation of `bestScoring`: PASS exactly on no
acceptable word; otherwise the first acceptable word of maximal score. -/
theorem bestScoring_correct (hand : List Char) (ws : List Word) (hOk : lettersOk hand) :
    (bestScoring hand ws = passWord ↔ acceptables hand ws = []) ∧
    (acceptables hand ws ≠ [] →
      bestScoring hand ws ∈ acceptables hand ws ∧
      (∀ w ∈ acceptables hand ws, scoreWord w ≤ scoreWord (bestScoring hand ws)) ∧
      (acceptables hand ws).find?
        (fun w => decide (scoreWord (bestScoring hand ws) ≤ scoreWord w)) =
        some (bestScoring hand ws)) := by
  rw [bestScoring_eq_fold]
  rcases smartFold_spec (acceptables hand ws) ([], 0) with ⟨heq, hall⟩ | ⟨hmem, hsc, -, hall, hfind⟩
  · have hempty : acceptables hand ws = [] := by
      by_contra hne
      obtain ⟨w, hw⟩ := List.exists_mem_of_ne_nil _ hne
      have := hall w hw
      have := scoreWord_pos hOk hw
      simp at this
      omega
    rw [heq]
    simp [hempty]
  · have hne : acceptables hand ws ≠ [] := by
      intro h
      rw [h] at hmem
      exact absurd hmem (List.not_mem_nil _)
    have hlen2 : 2 ≤ ((acceptables hand ws).foldl smartStep ([], 0)).1.length :=
      (acceptables_spec hmem).1
    have hnonempty : ((acceptables hand ws).foldl smartStep ([], 0)).1.isEmpty = false := by
      cases h : ((acceptables hand ws).foldl smartStep ([], 0)).1 with
      | nil => rw [h] at hlen2; simp at hlen2
      | cons a rest => simp
    rw [if_neg (by simp [hnonempty])]
    have hnp : ((acceptables hand ws).foldl smartStep ([], 0)).1 ≠ passWord :=
      acceptable_ne_passWord hOk hmem
    refine ⟨by simp [hnp, hne], ?_⟩
    intro _
    refine ⟨hmem, ?_, ?_⟩
    · intro w hw
      have := hall w hw
      omega
    · rw [← hsc]
      exact hfind

theorem min_max_smart_smart_eq (hand : List Char) (ws : List Word) :
    min_max_smart Strategy.SMART hand ws = bestScoring hand ws := by
  unfold min_max_smart
  rw [mmsLoop_none_of_not_minmax (by decide)]
  rfl

theorem smart_learn_eq_passWord (hand : List Char) (ws : List Word) :
    smart_learn hand ws = passWord := by
  unfold smart_learn min_max_smart
  rw [mmsLoop_none_of_not_minmax (by decide)]
  rfl

/-! ### The FAIL sort -/

theorem failPairs_eq_map (hand : List Char) (ws : List Word) :
    failPairs hand ws = (acceptables hand ws).map (fun w => (scoreWord w, w)) := by
  unfold failPairs acceptables
  rw [List.map_flatMap]

theorem mem_failSorted {hand : List Char} {ws : List Word} {p : Nat × Word} :
    p ∈ failSorted hand ws ↔ p ∈ failPairs hand ws :=
  List.mem_insertionSort _

theorem mem_failPairs_spec {hand : List Char} {ws : List Word} {p : Nat × Word}
    (h : p ∈ failPairs hand ws) :
    p.1 = scoreWord p.2 ∧ p.2 ∈ acceptables hand ws := by
  rw [failPairs_eq_map] at h
  obtain ⟨w, hw, hp⟩ := List.mem_map.mp h
  rw [← hp]
  exact ⟨rfl, hw⟩

theorem failSorted_eq_nil_iff {hand : List Char} {ws : List Word} :
    failSorted hand ws = [] ↔ acceptables hand ws = [] := by
  unfold failSorted
  constructor
  · intro h
    have hperm := List.perm_insertionSort
      (fun a b => pairGe a b = true) (failPairs hand ws)
    rw [h] at hperm
    have := hperm.symm.eq_nil
    rw [failPairs_eq_map] at this
    exact List.map_eq_nil_iff.mp this
  · intro h
    have : failPairs hand ws = [] := by
      rw [failPairs_eq_map, h]
      rfl
    rw [this]
    rfl

/-! ### Claim C2 — LEARN -/

/-- C2: the claim says LEARN performs the MIN-style ascending search and
returns its first acceptable word.  In the code, `smart_learn` delegates
to `min_max_smart`, whose internal dispatch only recognises MIN/MAX (and
SMART for the final scan), so with the LEARN tag the loop discards every
candidate and `play` returns `"PASS"` unconditionally — for every hand,
dictionary and learned set. -/
theorem claim2_learn_always_pass (hand : List Char) (ws learned : List Word) :
    computerPlay Strategy.LEARN learned hand ws = passWord :=
  smart_learn_eq_passWord hand (ws ++ learned)

/-! ### Claim C3 — SMART -/

/-- C3: for SMART, `play` returns PASS exactly when no permutation of
the hand at any arity 2..k is in the combined oracle; otherwise it
returns an acceptable word of maximal score, and ties go to the first
such word in enumeration order (it is the first acceptable word whose
score is ≥ the maximum). -/
theorem claim3_smart_best (hand : List Char) (ws learned : List Word)
    (hOk : lettersOk hand) :
    (computerPlay Strategy.SMART learned hand ws = passWord ↔
      acceptables hand (ws ++ learned) = []) ∧
    (acceptables hand (ws ++ learned) ≠ [] →
      computerPlay Strategy.SMART learned hand ws ∈ acceptables hand (ws ++ learned) ∧
      (∀ w ∈ acceptables hand (ws ++ learned),
        scoreWord w ≤ scoreWord (computerPlay Strategy.SMART learned hand ws)) ∧
      (acceptables hand (ws ++ learned)).find?
        (fun w => decide (scoreWord (computerPlay Strategy.SMART learned hand ws) ≤ scoreWord w)) =
        some (computerPlay Strategy.SMART learned hand ws)) := by
  have h : computerPlay Strategy.SMART learned hand ws = bestScoring hand (ws ++ learned) :=
    min_max_smart_smart_eq hand (ws ++ learned)
  rw [h]
  exact bestScoring_correct hand (ws ++ learned) hOk

/-- Witness for C3 at the hand ΑΛΦΑ with dictionary {ΑΛΦΑ}. -/
theorem claim3_witness :
    lettersOk ['Α', 'Λ', 'Φ', 'Α'] ∧
    acceptables ['Α', 'Λ', 'Φ', 'Α'] ([[ 'Α', 'Λ', 'Φ', 'Α' ]] ++ []) ≠ [] ∧
    computerPlay Strategy.SMART [] ['Α', 'Λ', 'Φ', 'Α'] [[ 'Α', 'Λ', 'Φ', 'Α' ]] ∈
      acceptables ['Α', 'Λ', 'Φ', 'Α'] ([[ 'Α', 'Λ', 'Φ', 'Α' ]] ++ []) :=
  ⟨by decide, by decide,
    ((claim3_smart_best ['Α', 'Λ', 'Φ', 'Α'] [[ 'Α', 'Λ', 'Φ', 'Α' ]] [] (by decide)).2
      (by decide)).1⟩

/-! ### Claim C4 — MIN and MAX -/

/-- C4: MIN returns PASS exactly when no arity 2..k has an acceptable
word; otherwise its word is the first acceptable word (in enumeration
order) of the smallest arity with an acceptable word, and has minimal
length among all acceptable words.  MAX is symmetric with the largest
arity and maximal length. -/
theorem claim4_min_max (hand : List Char) (ws learned : List Word)
    (hOk : lettersOk hand) :
    (computerPlay Strategy.MIN learned hand ws = passWord ↔
      acceptables hand (ws ++ learned) = []) ∧
    (computerPlay Strategy.MAX learned hand ws = passWord ↔
      acceptables hand (ws ++ learned) = []) ∧
    (computerPlay Strategy.MIN learned hand ws ≠ passWord →
      ∃ i₀, 2 ≤ i₀ ∧ i₀ ≤ hand.length ∧
        (∀ j, 2 ≤ j → j < i₀ → candsAt hand (ws ++ learned) j = []) ∧
        (candsAt hand (ws ++ learned) i₀).head? =
          some (computerPlay Strategy.MIN learned hand ws) ∧
        (∀ w ∈ acceptables hand (ws ++ learned),
          (computerPlay Strategy.MIN learned hand ws).length ≤ w.length)) ∧
    (computerPlay Strategy.MAX learned hand ws ≠ passWord →
      ∃ i₁, 2 ≤ i₁ ∧ i₁ ≤ hand.length ∧
        (∀ j, i₁ < j → j ≤ hand.length → candsAt hand (ws ++ learned) j = []) ∧
        (candsAt hand (ws ++ learned) i₁).head? =
          some (computerPlay Strategy.MAX learned hand ws) ∧
        (∀ w ∈ acceptables hand (ws ++ learned),
          w.length ≤ (computerPlay Strategy.MAX learned hand ws).length)) := by
  have hmin : computerPlay Strategy.MIN learned hand ws =
      min_max_smart Strategy.MIN hand (ws ++ learned) := rfl
  have hmax : computerPlay Strategy.MAX learned hand ws =
      min_max_smart Strategy.MAX hand (ws ++ learned) := rfl
  rw [hmin, hmax]
  obtain ⟨hminiff, hminspec⟩ := min_correct hand (ws ++ learned) hOk
  obtain ⟨hmaxiff, hmaxspec⟩ := max_correct hand (ws ++ learned) hOk
  exact ⟨hminiff, hmaxiff, hminspec, hmaxspec⟩

/-- Witness for C4 at the hand ΑΛΦΑ with dictionary {ΑΛΦΑ}. -/
theorem claim4_witness :
    lettersOk ['Α', 'Λ', 'Φ', 'Α'] ∧
    (computerPlay Strategy.MIN [] ['Α', 'Λ', 'Φ', 'Α'] [[ 'Α', 'Λ', 'Φ', 'Α' ]] = passWord ↔
      acceptables ['Α', 'Λ', 'Φ', 'Α'] ([[ 'Α', 'Λ', 'Φ', 'Α' ]] ++ []) = []) :=
  ⟨by decide,
    (claim4_min_max ['Α', 'Λ', 'Φ', 'Α'] [[ 'Α', 'Λ', 'Φ', 'Α' ]] [] (by decide)).1⟩

/-! ### Claim C1 — FAIL -/

/-- C1 (amended): FAIL collects one `(score, word)` pair per acceptable
permutation — with multiplicity, so a hand with repeated letters can
contribute the same word more than once — sorts the pairs descending,
and indexes the sorted list: PASS when empty, the only entry's word for
a singleton, and the word of the *second list entry* otherwise.  The
second list entry is the second-highest distinct entry only when the top
entry occurs exactly once in the list. -/
theorem claim1_amended (hand : List Char) (ws learned : List Word)
    (hOk : lettersOk hand) :
    (computerPlay Strategy.FAIL learned hand ws = passWord ↔
      failSorted hand (ws ++ learned) = []) ∧
    (∀ p, failSorted hand (ws ++ learned) = [p] →
      computerPlay Strategy.FAIL learned hand ws = p.2) ∧
    (∀ p q rest, failSorted hand (ws ++ learned) = p :: q :: rest →
      computerPlay Strategy.FAIL learned hand ws = q.2) ∧
    (∀ p q rest, failSorted hand (ws ++ learned) = p :: q :: rest →
      p ∉ q :: rest → computerPlay Strategy.FAIL learned hand ws ≠ p.2) := by
  have hplay : computerPlay Strategy.FAIL learned hand ws =
      fail_strategy hand (ws ++ learned) := rfl
  have hmem_word : ∀ p : Nat × Word, p ∈ failSorted hand (ws ++ learned) →
      p.1 = scoreWord p.2 ∧ p.2 ∈ acceptables hand (ws ++ learned) :=
    fun p hp => mem_failPairs_spec (mem_failSorted.mp hp)
  refine ⟨?_, ?_, ?_, ?_⟩
  · rw [hplay]
    unfold fail_strategy
    cases h : failSorted hand (ws ++ learned) with
    | nil => simp
    | cons p tail =>
      cases tail with
      | nil =>
        have hpmem : p ∈ failSorted hand (ws ++ learned) := by
          rw [h]; exact List.mem_cons_self _ _
        have hne : p.2 ≠ passWord :=
          acceptable_ne_passWord hOk (hmem_word p hpmem).2
        simp [hne]
      | cons q rest =>
        have hqmem : q ∈ failSorted hand (ws ++ learned) := by
          rw [h]; exact List.mem_cons_of_mem _ (List.mem_cons_self _ _)
        have hne : q.2 ≠ passWord :=
          acceptable_ne_passWord hOk (hmem_word q hqmem).2
        simp [hne]
  · intro p h
    rw [hplay]
    unfold fail_strategy
    rw [h]
  · intro p q rest h
    rw [hplay]
    unfold fail_strategy
    rw [h]
  · intro p q rest h hnotin
    rw [hplay]
    unfold fail_strategy
    rw [h]
    show q.2 ≠ p.2
    intro heq
    have hpmem : p ∈ failSorted hand (ws ++ learned) := by
      rw [h]; exact List.mem_cons_self _ _
    have hqmem : q ∈ failSorted hand (ws ++ learned) := by
      rw [h]; exact List.mem_cons_of_mem _ (List.mem_cons_self _ _)
    have hp := hmem_word p hpmem
    have hq := hmem_word q hqmem
    have h1 : p.1 = q.1 := by rw [hp.1, hq.1, heq]
    have hpq : p = q := by
      obtain ⟨p1, p2⟩ := p
      obtain ⟨q1, q2⟩ := q
      simp only at h1 heq
      simp [h1, heq]
    exact hnotin (hpq ▸ List.mem_cons_self _ _)

/-- Witness for C1 (amended) on a duplicate-free hand: with acceptable
words ΚΙΦ (score 11) and ΚΙ (score 9 − 6 = 3), FAIL returns the
second-highest entry ΚΙ. -/
theorem claim1_witness :
    lettersOk ['Κ', 'Ι', 'Φ'] ∧
    computerPlay Strategy.FAIL [] ['Κ', 'Ι', 'Φ']
      [['Κ', 'Ι'], ['Κ', 'Ι', 'Φ']] = ['Κ', 'Ι'] :=
  ⟨by decide,
    (claim1_amended ['Κ', 'Ι', 'Φ'] [['Κ', 'Ι'], ['Κ', 'Ι', 'Φ']] [] (by decide)).2.2.1
      (11, ['Κ', 'Ι', 'Φ']) (3, ['Κ', 'Ι']) [] (by decide)⟩

/-- C1 counterexample: hand Α,Α,Β with dictionary {ΑΒΑ, ΑΒ}.  Exactly
two distinct acceptable words exist (ΑΒΑ scoring 10, ΑΒ scoring 9), so
the claim requires FAIL to return the second-highest-scoring word ΑΒ and
never the single highest-scoring one; but both words arise from two
permutations each, the second entry of the sorted list duplicates the
top entry, and FAIL returns the highest-scoring word ΑΒΑ. -/
theorem claim1_counterexample :
    computerPlay Strategy.FAIL [] ['Α', 'Α', 'Β']
      [['Α', 'Β', 'Α'], ['Α', 'Β']] = ['Α', 'Β', 'Α'] ∧
    (∀ w ∈ acceptables ['Α', 'Α', 'Β'] ([['Α', 'Β', 'Α'], ['Α', 'Β']] ++ []),
      w = ['Α', 'Β', 'Α'] ∨ w = ['Α', 'Β']) ∧
    ['Α', 'Β'] ∈ acceptables ['Α', 'Α', 'Β'] ([['Α', 'Β', 'Α'], ['Α', 'Β']] ++ []) ∧
    ['Α', 'Β', 'Α'] ∈ acceptables ['Α', 'Α', 'Β'] ([['Α', 'Β', 'Α'], ['Α', 'Β']] ++ []) ∧
    scoreWord ['Α', 'Β'] < scoreWord ['Α', 'Β', 'Α'] := by
  decide

/-! ### Claims C7 and C8 — the bag -/

/-- C8: for every bag and every requested `n`, `getletters` succeeds (it
never pops an empty list), returns exactly `min n (size of the bag)`
letters, removes exactly the returned letters (per-letter counts add
back up), and returns the whole bag when fewer than `n` letters remain. -/
theorem claim8_getletters_total (s : List Char) (n : Nat) :
    ∃ h₁ s₁, getletters s n = some (h₁, s₁) ∧
      h₁.length = min n s.length ∧
      (h₁ ++ s₁).Perm s ∧
      (∀ c : Char, h₁.count c + s₁.count c = s.count c) ∧
      (s.length ≤ n → s₁ = []) := by
  obtain ⟨h₁, s₁, heq, hl, hp⟩ := getletters_spec s n
  refine ⟨h₁, s₁, heq, hl, hp, ?_, ?_⟩
  · intro c
    have := hp.count_eq c
    simpa [List.count_append] using this
  · intro hle
    have hlen := hp.length_eq
    have hmin : min n s.length = s.length := Nat.min_eq_right hle
    simp only [List.length_append] at hlen
    have hz : s₁.length = 0 := by omega
    exact List.eq_nil_of_length_eq_zero hz

/-- C7: drawing `n` letters and putting the drawn letters back restores
the bag to a permutation of its previous contents (same multiset, same
total count; only the order may differ). -/
theorem claim7_roundtrip (s : List Char) (n : Nat) (sh : List Char → List Char)
    (hsh : IsShuffle sh) :
    ∃ h₁ s₁, getletters s n = some (h₁, s₁) ∧
      (putbackletters sh s₁ h₁).Perm s ∧
      (putbackletters sh s₁ h₁).length = s.length ∧
      (∀ c : Char, (putbackletters sh s₁ h₁).count c = s.count c) := by
  obtain ⟨h₁, s₁, heq, -, hp⟩ := getletters_spec s n
  have hperm : (putbackletters sh s₁ h₁).Perm s := by
    unfold putbackletters
    exact (hsh (s₁ ++ h₁)).trans (List.perm_append_comm.trans hp)
  exact ⟨h₁, s₁, heq, hperm, hperm.length_eq, fun c => hperm.count_eq c⟩

/-- Witness for C7 with the identity shuffle on a three-letter bag. -/
theorem claim7_witness :
    IsShuffle (fun l => l) ∧
    (∃ h₁ s₁, getletters ['Α', 'Β', 'Γ'] 2 = some (h₁, s₁) ∧
      (putbackletters (fun l => l) s₁ h₁).Perm ['Α', 'Β', 'Γ']) :=
  ⟨fun l => List.Perm.refl l, by
    obtain ⟨h₁, s₁, heq, hperm, -, -⟩ :=
      claim7_roundtrip ['Α', 'Β', 'Γ'] 2 (fun l => l) (fun l => List.Perm.refl l)
    exact ⟨h₁, s₁, heq, hperm⟩⟩

/-! ### Lemmas about the turn loop -/

theorem playableFrom_iff {w hand : List Char} :
    playableFrom w hand = true ↔ ∀ l ∈ w, w.count l ≤ hand.count l := by
  simp [playableFrom, List.all_eq_true]

theorem playableFrom_count {w hand : List Char} (h : playableFrom w hand = true) :
    ∀ l, w.count l ≤ hand.count l := by
  intro l
  by_cases hl : l ∈ w
  · exact playableFrom_iff.mp h l hl
  · rw [List.count_eq_zero_of_not_mem hl]
    exact Nat.zero_le _

theorem removeLetters_length :
    ∀ (w hand : List Char), (∀ l, w.count l ≤ hand.count l) →
      (removeLetters hand w).length + w.length = hand.length := by
  intro w
  induction w with
  | nil => intro hand _; simp [removeLetters]
  | cons l rest ih =>
    intro hand h
    have hcl : rest.count l + 1 ≤ hand.count l := by
      have := h l
      rwa [List.count_cons_self] at this
    have hl : l ∈ hand := by
      rw [← List.count_pos_iff]
      omega
    have hrest : ∀ c, rest.count c ≤ (hand.erase l).count c := by
      intro c
      by_cases hc : c = l
      · subst hc
        rw [List.count_erase_self]
        omega
      · rw [List.count_erase_of_ne hc]
        have := h c
        rwa [List.count_cons_of_ne hc] at this
    have hlen : (hand.erase l).length + 1 = hand.length := List.length_erase_add_one hl
    have hrec := ih (hand.erase l) hrest
    have hfold : removeLetters hand (l :: rest) = removeLetters (hand.erase l) rest := rfl
    rw [hfold]
    simp only [List.length_cons]
    omega

theorem removeLetters_subset :
    ∀ (w hand : List Char) (c : Char), c ∈ removeLetters hand w → c ∈ hand := by
  intro w
  induction w with
  | nil => intro hand c h; exact h
  | cons l rest ih =>
    intro hand c h
    have hfold : removeLetters hand (l :: rest) = removeLetters (hand.erase l) rest := rfl
    rw [hfold] at h
    exact List.mem_of_mem_erase (ih (hand.erase l) c h)

theorem shuffle_length {sh : List Char → List Char} (hsh : IsShuffle sh) (l : List Char) :
    (sh l).length = l.length :=
  (hsh l).length_eq

theorem putbackletters_length {sh : List Char → List Char} (hsh : IsShuffle sh)
    (sak letters : List Char) :
    (putbackletters sh sak letters).length = sak.length + letters.length := by
  unfold putbackletters
  rw [shuffle_length hsh]
  simp

/-! ### Claim C9 — exchange frame conditions -/

/-- C9: when the acting player's token is the exchange token `P` and
their hand holds 7 letters, after the exchange their hand again holds
exactly 7 letters, the bag's total count is unchanged, their score is
unchanged, and the other player's entire state is untouched (first
conjunct: human acting; second: computer acting). -/
theorem claim9_exchange_frame (ws : List Word) (strat : Strategy)
    (sh : List Char → List Char) (s : GameState) (input : Word)
    (hsh : IsShuffle sh) (htoken : activeToken ws strat s input = pWord) :
    (s.turn % 2 = 0 → s.humanHand.length = 7 →
      (runTurn ws strat sh s input).2 = Outcome.exchanged ∧
      (runTurn ws strat sh s input).1.humanHand.length = 7 ∧
      (runTurn ws strat sh s input).1.sak.length = s.sak.length ∧
      (runTurn ws strat sh s input).1.humanScore = s.humanScore ∧
      (runTurn ws strat sh s input).1.compHand = s.compHand ∧
      (runTurn ws strat sh s input).1.compScore = s.compScore ∧
      (runTurn ws strat sh s input).1.learned = s.learned) ∧
    (s.turn % 2 ≠ 0 → s.compHand.length = 7 →
      (runTurn ws strat sh s input).2 = Outcome.exchanged ∧
      (runTurn ws strat sh s input).1.compHand.length = 7 ∧
      (runTurn ws strat sh s input).1.sak.length = s.sak.length ∧
      (runTurn ws strat sh s input).1.compScore = s.compScore ∧
      (runTurn ws strat sh s input).1.humanHand = s.humanHand ∧
      (runTurn ws strat sh s input).1.humanScore = s.humanScore ∧
      (runTurn ws strat sh s input).1.learned = s.learned) := by
  constructor
  · intro hpar hlen
    have hcond : (s.turn % 2 = 0) = True := eq_true hpar
    simp only [runTurn, htoken, hcond, if_true]
    have hbag : (putbackletters sh s.sak s.humanHand).length = s.sak.length + 7 := by
      rw [putbackletters_length hsh, hlen]
    refine ⟨rfl, ?_, ?_, rfl, rfl, rfl, rfl⟩
    · show (getlettersT (putbackletters sh s.sak s.humanHand) 7).1.length = 7
      rw [getlettersT_fst_length, hbag]
      omega
    · show (getlettersT (putbackletters sh s.sak s.humanHand) 7).2.length = s.sak.length
      rw [getlettersT_snd_length, hbag]
      omega
  · intro hpar hlen
    have hcond : (s.turn % 2 = 0) = False := eq_false hpar
    simp only [runTurn, htoken, hcond, if_false]
    have hbag : (putbackletters sh s.sak s.compHand).length = s.sak.length + 7 := by
      rw [putbackletters_length hsh, hlen]
    refine ⟨rfl, ?_, ?_, rfl, rfl, rfl, rfl⟩
    · show (getlettersT (putbackletters sh s.sak s.compHand) 7).1.length = 7
      rw [getlettersT_fst_length, hbag]
      omega
    · show (getlettersT (putbackletters sh s.sak s.compHand) 7).2.length = s.sak.length
      rw [getlettersT_snd_length, hbag]
      omega

/-- Witness for C9: exchange on the initial deal with the identity
shuffle keeps the bag size unchanged. -/
theorem claim9_witness :
    IsShuffle (fun l => l) ∧
    activeToken [] Strategy.SMART (setupState (fun l => l)) pWord = pWord ∧
    (setupState (fun l => l)).turn % 2 = 0 ∧
    (setupState (fun l => l)).humanHand.length = 7 ∧
    (runTurn [] Strategy.SMART (fun l => l) (setupState (fun l => l)) pWord).1.sak.length =
      (setupState (fun l => l)).sak.length :=
  ⟨fun l => List.Perm.refl l, by decide, by decide, by decide,
    ((claim9_exchange_frame [] Strategy.SMART (fun l => l) (setupState (fun l => l)) pWord
        (fun l => List.Perm.refl l) (by decide)).1 (by decide) (by decide)).2.2.1⟩

/-! ### Claim C5 — letter conservation -/

/-- C5 (amended): after setup the bag and the two hands together hold
the full 102 tiles of the letter table; quit, exchange, pass, invalid
and TEACH-advisory turns preserve the total, but a turn that plays word
`w` removes the `w.length` used letters from the game permanently (they
return to neither bag nor hand), so the total drops by exactly
`w.length` — recorded here as `playedPenalty`. -/
theorem claim5_amended (ws : List Word) (strat : Strategy) (sh : List Char → List Char)
    (s : GameState) (input : Word) (hsh : IsShuffle sh) :
    totalLetters (setupState sh) = 102 ∧
    totalLetters (runTurn ws strat sh s input).1 +
      playedPenalty (runTurn ws strat sh s input).2 = totalLetters s := by
  constructor
  · have h102 : (sh expandTable).length = 102 := by
      rw [shuffle_length hsh]
      decide
    simp only [setupState, totalLetters, getlettersT_fst_length, getlettersT_snd_length]
    omega
  · by_cases h1 : activeToken ws strat s input = qWord
    · simp [runTurn, h1, playedPenalty]
    · by_cases h2 : activeToken ws strat s input = pWord
      · by_cases hpar : s.turn % 2 = 0
        · have hcond : (s.turn % 2 = 0) = True := eq_true hpar
          simp [runTurn, h2, hcond, playedPenalty, totalLetters,
                getlettersT_fst_length, getlettersT_snd_length, putbackletters_length hsh,
                show (pWord = qWord) = False by decide]
        · have hcond : (s.turn % 2 = 0) = False := eq_false hpar
          simp [runTurn, h2, hcond, playedPenalty, totalLetters,
                getlettersT_fst_length, getlettersT_snd_length, putbackletters_length hsh,
                show (pWord = qWord) = False by decide]
          omega
      · by_cases hpar : s.turn % 2 = 0
        · have hcond : (s.turn % 2 = 0) = True := eq_true hpar
          by_cases h3 : (decide (activeToken ws strat s input ∈ ws) &&
              playableFrom (activeToken ws strat s input) s.humanHand) = true
          · have hplay : playableFrom (activeToken ws strat s input) s.humanHand = true :=
              (Bool.and_eq_true _ _ |>.mp h3).2
            have hrl := removeLetters_length (activeToken ws strat s input) s.humanHand
              (playableFrom_count hplay)
            simp [runTurn, h1, h2, h3, hcond, playedPenalty, totalLetters,
                  getlettersT_fst_length, getlettersT_snd_length]
            omega
          · by_cases h4 : activeToken ws strat s input = passWord
            · rw [h4] at h3
              simp [runTurn, h4, h3, hcond, playedPenalty, totalLetters,
                    show (passWord = qWord) = False by decide,
                    show (passWord = pWord) = False by decide]
            · by_cases h5 : strat = Strategy.TEACH
              · subst h5
                simp [runTurn, h1, h2, h3, h4, hcond, playedPenalty, totalLetters]
              · simp [runTurn, h1, h2, h3, h4, h5, hcond, playedPenalty, totalLetters]
        · have hcond : (s.turn % 2 = 0) = False := eq_false hpar
          by_cases h3 : (decide (activeToken ws strat s input ∈ ws) &&
              playableFrom (activeToken ws strat s input) s.compHand) = true
          · have hplay : playableFrom (activeToken ws strat s input) s.compHand = true :=
              (Bool.and_eq_true _ _ |>.mp h3).2
            have hrl := removeLetters_length (activeToken ws strat s input) s.compHand
              (playableFrom_count hplay)
            simp [runTurn, h1, h2, h3, hcond, playedPenalty, totalLetters,
                  getlettersT_fst_length, getlettersT_snd_length]
            omega
          · by_cases h4 : activeToken ws strat s input = passWord
            · rw [h4] at h3
              simp [runTurn, h4, h3, hcond, playedPenalty, totalLetters,
                    show (passWord = qWord) = False by decide,
                    show (passWord = pWord) = False by decide]
            · simp [runTurn, h1, h2, h3, h4, hcond, playedPenalty, totalLetters]

/-- Witness for C5 (amended): the identity shuffle deals 102 letters. -/
theorem claim5_witness :
    IsShuffle (fun l => l) ∧ totalLetters (setupState (fun l => l)) = 102 :=
  ⟨fun l => List.Perm.refl l,
    (claim5_amended [] Strategy.SMART (fun l => l) (setupState (fun l => l)) []
      (fun l => List.Perm.refl l)).1⟩

/-- C5 counterexample: a reachable state whose total letter count is
not 102.  From the initial deal with the identity shuffle the human's
hand is Ω,Ω,Ω,Ψ,Χ,Φ,Υ; with dictionary {ΩΩ} the human plays ΩΩ on turn
0, and the two played letters leave the game: 86 in the bag plus 7 + 7
in hands = 100 tiles. -/
theorem claim5_counterexample :
    Reachable [['Ω', 'Ω']] Strategy.SMART
      (runTurn [['Ω', 'Ω']] Strategy.SMART (fun l => l)
        (setupState (fun l => l)) ['Ω', 'Ω']).1 ∧
    totalLetters (runTurn [['Ω', 'Ω']] Strategy.SMART (fun l => l)
        (setupState (fun l => l)) ['Ω', 'Ω']).1 = 100 :=
  ⟨Reachable.step _ _ _ (fun l => List.Perm.refl l)
      (Reachable.setup _ (fun l => List.Perm.refl l)),
   by decide⟩

/-! ### Claim C6 — the TEACH advisory -/

/-- C6 (amended): with strategy TEACH and the human acting, the advisory
branch runs only when the token is none of Q, P, PASS and not a playable
dictionary word; the best word is then computed with `smart_teach`, but
it is *surfaced only when the token is in the dictionary* (an
in-dictionary word unplayable from the hand).  The turn leaves every
hand, score, the bag and the learned set unchanged. -/
theorem claim6_amended (ws : List Word) (sh : List Char → List Char)
    (s : GameState) (input : Word)
    (hpar : s.turn % 2 = 0)
    (hq : input ≠ qWord) (hp : input ≠ pWord) (hpass : input ≠ passWord)
    (hnplay : ¬(input ∈ ws ∧ playableFrom input s.humanHand = true)) :
    (runTurn ws Strategy.TEACH sh s input).1 = { s with turn := s.turn + 1 } ∧
    (runTurn ws Strategy.TEACH sh s input).2 =
      Outcome.advised (smart_teach s.compHand ws) (decide (input ∈ ws)) ∧
    surfacedAdvice (runTurn ws Strategy.TEACH sh s input).2 =
      (if input ∈ ws then some (smart_teach s.compHand ws) else none) := by
  have hcond : (s.turn % 2 = 0) = True := eq_true hpar
  have htoken : activeToken ws Strategy.TEACH s input = input := by
    unfold activeToken
    rw [if_pos hpar]
  have h3 : ¬((decide (input ∈ ws) && playableFrom input s.humanHand) = true) := by
    intro hc
    obtain ⟨ha, hb⟩ := (Bool.and_eq_true _ _).mp hc
    exact hnplay ⟨of_decide_eq_true ha, hb⟩
  refine ⟨?_, ?_, ?_⟩
  · simp [runTurn, htoken, hq, hp, hpass, h3, hcond]
  · simp [runTurn, htoken, hq, hp, hpass, h3, hcond]
  · by_cases hin : input ∈ ws
    · have hpl : ¬(playableFrom input s.humanHand = true) := fun hb => hnplay ⟨hin, hb⟩
      simp [runTurn, htoken, hq, hp, hpass, hpl, hcond, hin, surfacedAdvice]
    · simp [runTurn, htoken, hq, hp, hpass, h3, hcond, hin, surfacedAdvice]

/-- Witness for C6 (amended): with dictionary {ΩΩ, ΤΤ} the human
submits ΤΤ, a dictionary word not playable from their dealt hand
Ω,Ω,Ω,Ψ,Χ,Φ,Υ; the advisory is surfaced. -/
theorem claim6_witness :
    (setupState (fun l => l)).turn % 2 = 0 ∧
    surfacedAdvice (runTurn [['Ω', 'Ω'], ['Τ', 'Τ']] Strategy.TEACH (fun l => l)
        (setupState (fun l => l)) ['Τ', 'Τ']).2 =
      (if ['Τ', 'Τ'] ∈ [['Ω', 'Ω'], ['Τ', 'Τ']] then
        some (smart_teach (setupState (fun l => l)).compHand [['Ω', 'Ω'], ['Τ', 'Τ']])
       else none) :=
  ⟨by decide,
    (claim6_amended [['Ω', 'Ω'], ['Τ', 'Τ']] (fun l => l) (setupState (fun l => l)) ['Τ', 'Τ']
      (by decide) (by decide) (by decide) (by decide) (by decide)).2.2⟩

/-- C6 counterexample: strategy TEACH, the human acts and submits the
playable dictionary word ΩΩ.  The move resolves as a play, no advisory
word is computed or surfaced — the claim demanded one for *whatever*
token the human submitted. -/
theorem claim6_counterexample :
    (setupState (fun l => l)).turn % 2 = 0 ∧
    (runTurn [['Ω', 'Ω']] Strategy.TEACH (fun l => l)
        (setupState (fun l => l)) ['Ω', 'Ω']).2 = Outcome.played ['Ω', 'Ω'] 6 ∧
    surfacedAdvice (runTurn [['Ω', 'Ω']] Strategy.TEACH (fun l => l)
        (setupState (fun l => l)) ['Ω', 'Ω']).2 = none := by
  decide

/-! ### Claim C10 — hands stay inside the letter table -/

theorem reachable_ok {ws : List Word} {strat : Strategy} {s : GameState}
    (h : Reachable ws strat s) :
    lettersOk s.sak ∧ lettersOk s.humanHand ∧ lettersOk s.compHand := by
  induction h with
  | setup sh hsh =>
    have hexp : lettersOk (sh expandTable) := fun c hc =>
      mem_expandTable_lookup ((hsh expandTable).mem_iff.mp hc)
    have h₁ : lettersOk (getlettersT (sh expandTable) 7).1 :=
      fun c hc => hexp c (getlettersT_fst_subset hc)
    have h₂ : lettersOk (getlettersT (sh expandTable) 7).2 :=
      fun c hc => hexp c (getlettersT_snd_subset hc)
    refine ⟨?_, ?_, ?_⟩
    · exact fun c hc => h₂ c (getlettersT_snd_subset hc)
    · exact h₁
    · exact fun c hc => h₂ c (getlettersT_fst_subset hc)
  | step s input sh hsh hreach ih =>
    obtain ⟨hsak, hhum, hcomp⟩ := ih
    by_cases h1 : activeToken ws strat s input = qWord
    · simpa [runTurn, h1] using ⟨hsak, hhum, hcomp⟩
    · by_cases h2 : activeToken ws strat s input = pWord
      · by_cases hpar : s.turn % 2 = 0
        · have hcond : (s.turn % 2 = 0) = True := eq_true hpar
          have hall : lettersOk (putbackletters sh s.sak s.humanHand) := by
            intro c hc
            rcases List.mem_append.mp ((hsh (s.sak ++ s.humanHand)).mem_iff.mp hc) with h | h
            · exact hsak c h
            · exact hhum c h
          simp only [runTurn, h2, hcond, if_true,
            show (pWord = qWord) = False by decide, if_false]
          exact ⟨fun c hc => hall c (getlettersT_snd_subset hc),
            fun c hc => hall c (getlettersT_fst_subset hc), hcomp⟩
        · have hcond : (s.turn % 2 = 0) = False := eq_false hpar
          have hall : lettersOk (putbackletters sh s.sak s.compHand) := by
            intro c hc
            rcases List.mem_append.mp ((hsh (s.sak ++ s.compHand)).mem_iff.mp hc) with h | h
            · exact hsak c h
            · exact hcomp c h
          simp only [runTurn, h2, hcond, if_false,
            show (pWord = qWord) = False by decide, if_true]
          exact ⟨fun c hc => hall c (getlettersT_snd_subset hc), hhum,
            fun c hc => hall c (getlettersT_fst_subset hc)⟩
      · by_cases hpar : s.turn % 2 = 0
        · have hcond : (s.turn % 2 = 0) = True := eq_true hpar
          by_cases h3 : (decide (activeToken ws strat s input ∈ ws) &&
              playableFrom (activeToken ws strat s input) s.humanHand) = true
          · have hrem : lettersOk (removeLetters s.humanHand (activeToken ws strat s input)) :=
              fun c hc => hhum c (removeLetters_subset _ _ c hc)
            simp only [runTurn, hcond, if_true, if_neg h1, if_neg h2, if_pos h3]
            refine ⟨fun c hc => hsak c (getlettersT_snd_subset hc), ?_, hcomp⟩
            intro c hc
            rcases List.mem_append.mp hc with h | h
            · exact hrem c h
            · exact hsak c (getlettersT_fst_subset h)
          · by_cases h4 : activeToken ws strat s input = passWord
            · simp only [runTurn, hcond, if_true, if_neg h1, if_neg h2, if_neg h3, if_pos h4]
              exact ⟨hsak, hhum, hcomp⟩
            · by_cases h5 : strat = Strategy.TEACH
              · simp only [runTurn, hcond, if_true, if_neg h1, if_neg h2, if_neg h3, if_neg h4,
                  if_pos (⟨trivial, h5⟩ : (True ∧ strat = Strategy.TEACH))]
                exact ⟨hsak, hhum, hcomp⟩
              · simp only [runTurn, hcond, if_true, if_neg h1, if_neg h2, if_neg h3, if_neg h4,
                  if_neg (fun hc : True ∧ strat = Strategy.TEACH => h5 hc.2)]
                exact ⟨hsak, hhum, hcomp⟩
        · have hcond : (s.turn % 2 = 0) = False := eq_false hpar
          by_cases h3 : (decide (activeToken ws strat s input ∈ ws) &&
              playableFrom (activeToken ws strat s input) s.compHand) = true
          · have hrem : lettersOk (removeLetters s.compHand (activeToken ws strat s input)) :=
              fun c hc => hcomp c (removeLetters_subset _ _ c hc)
            simp only [runTurn, hcond, if_false, if_neg h1, if_neg h2, if_pos h3]
            refine ⟨fun c hc => hsak c (getlettersT_snd_subset hc), hhum, ?_⟩
            intro c hc
            rcases List.mem_append.mp hc with h | h
            · exact hrem c h
            · exact hsak c (getlettersT_fst_subset h)
          · by_cases h4 : activeToken ws strat s input = passWord
            · simp only [runTurn, hcond, if_false, if_neg h1, if_neg h2, if_neg h3, if_pos h4]
              exact ⟨hsak, hhum, hcomp⟩
            · simp only [runTurn, hcond, if_false, if_neg h1, if_neg h2, if_neg h3, if_neg h4,
                if_neg (fun hc : False ∧ strat = Strategy.TEACH => hc.1)]
              exact ⟨hsak, hhum, hcomp⟩

/-- C10: in every reachable state (after setup and after each completed
turn, for every shuffle outcome and every human input) every letter of
either player's hand is a key of the letter table, so the per-letter
score lookup succeeds for every word all of whose letters come from a
hand — both the turn loop scoring a played word validated against the
hand and a strategy scoring a permutation of the hand; the `KeyError`
branch of the lookup is unreachable. -/
theorem claim10_hands_in_table (ws : List Word) (strat : Strategy) (s : GameState)
    (h : Reachable ws strat s) :
    lettersOk s.humanHand ∧ lettersOk s.compHand ∧
    ∀ w : Word, (∀ c ∈ w, c ∈ s.humanHand ∨ c ∈ s.compHand) →
      (scoreWordOpt w).isSome := by
  obtain ⟨-, hhum, hcomp⟩ := reachable_ok h
  refine ⟨hhum, hcomp, ?_⟩
  intro w hw
  rw [scoreWordOpt_isSome_iff]
  intro c hc
  rcases hw c hc with h1 | h2
  · exact hhum c h1
  · exact hcomp c h2

/-- Witness for C10: the initial deal with the identity shuffle; the
human's dealt hand scores without a `KeyError`. -/
theorem claim10_witness :
    Reachable [] Strategy.SMART (setupState (fun l => l)) ∧
    (∀ c ∈ (['Ω', 'Ω'] : Word),
      c ∈ (setupState (fun l => l)).humanHand ∨ c ∈ (setupState (fun l => l)).compHand) ∧
    (scoreWordOpt ['Ω', 'Ω']).isSome :=
  ⟨Reachable.setup _ (fun l => List.Perm.refl l), by decide,
    (claim10_hands_in_table [] Strategy.SMART (setupState (fun l => l))
      (Reachable.setup _ (fun l => List.Perm.refl l))).2.2 ['Ω', 'Ω'] (by decide)⟩

end GreekScrabble
